import Mathlib

/-!
# goplugin: loader and plugin lifecycle

A shallow embedding of `loader.go` and `plugin.go`.

Go strings are modelled by `String` (the separators the code looks at, `.` and `/`, are
single bytes, so working on characters or on bytes makes no difference).  The operating
system and the libraries the code talks to (the free-port allocator, the directory
listing, the child process, the RPC transport) are explicit inputs of the functions that
use them.  File paths follow the Unix flavour of `path/filepath`.
-/

namespace GoPlugin

/-! ## Go values -/

/-- Go `error` values that are not nil, identified by their message. -/
structure GoError where
  msg : String
deriving DecidableEq, Repr

/-- Go `errors.New`. -/
def errorsNew (text : String) : GoError := ⟨text⟩

/-- Go `len` on a string: its length in bytes. -/
def goLen (s : String) : Nat := s.utf8ByteSize

/-- A live `*rpc.Client`, identified by a handle. -/
structure RpcClient where
  handle : Nat
deriving DecidableEq, Repr

/-! ## Library functions used by the loader -/

/-- Go `strings.Split(s, ".")` on the characters of `s`: the pieces between the dots. -/
def splitDotChars : List Char → List (List Char)
  | [] => [[]]
  | c :: t =>
    if c = '.' then [] :: splitDotChars t
    else
      match splitDotChars t with
      | [] => [[c]]
      | piece :: pieces => (c :: piece) :: pieces

/-- Go `strings.Split(s, ".")`. -/
def stringsSplitDot (s : String) : List String :=
  (splitDotChars s.data).map String.mk

/-- Go `filepath.Base` (Unix) on characters: strip the trailing slashes, keep what follows
the last slash; `.` for the empty path and `/` for a path of slashes only. -/
def baseChars (path : List Char) : List Char :=
  if path = [] then ['.']
  else
    let stripped := path.reverse.dropWhile (fun c => c = '/')
    let last := (stripped.takeWhile (fun c => c ≠ '/')).reverse
    if last = [] then ['/'] else last

/-- Go `filepath.Base`. -/
def filepathBase (path : String) : String := String.mk (baseChars path.data)

/-- The backtracking of `path.Clean` on a `..` element: `out.w--` followed by
`for out.w > dotdot && out.index(out.w) != '/' { out.w-- }`.  The buffer is kept
reversed (last written character first). -/
def cleanPop (dotdot : Nat) : List Char → List Char
  | [] => []
  | c :: t => if t.length > dotdot ∧ c ≠ '/' then cleanPop dotdot t else t

/-- The main loop of Go `path.Clean`.  `rest` is `path[r:]`, `out` is the content
`out[0:w]` of the write buffer, reversed, and the first argument bounds the number of
iterations (each one consumes at least one character of `rest`). -/
def cleanLoop (rooted : Bool) : Nat → List Char → List Char → Nat → List Char
  | 0, _, out, _ => out
  | _ + 1, [], out, _ => out
  | fuel + 1, c :: t, out, dotdot =>
    if c = '/' then
      -- empty path element
      cleanLoop rooted fuel t out dotdot
    else if c = '.' ∧ (t = [] ∨ t.head? = some '/') then
      -- . element
      cleanLoop rooted fuel t out dotdot
    else if c = '.' ∧ t.head? = some '.' ∧ (t.tail = [] ∨ t.tail.head? = some '/') then
      -- .. element: remove to last /
      if out.length > dotdot then
        cleanLoop rooted fuel t.tail (cleanPop dotdot out) dotdot
      else if rooted = false then
        let out1 := if out.length > 0 then '/' :: out else out
        let out2 := '.' :: '.' :: out1
        cleanLoop rooted fuel t.tail out2 out2.length
      else
        cleanLoop rooted fuel t.tail out dotdot
    else
      -- real path element: add slash if needed, copy element
      let out1 :=
        if (rooted = true ∧ out.length ≠ 1) ∨ (rooted = false ∧ out.length ≠ 0) then '/' :: out
        else out
      let seg := (c :: t).takeWhile (fun x => x ≠ '/')
      cleanLoop rooted fuel ((c :: t).dropWhile (fun x => x ≠ '/')) (seg.reverse ++ out1) dotdot

/-- Go `path.Clean` on characters. -/
def cleanChars (path : List Char) : List Char :=
  if path = [] then ['.']
  else
    let rooted : Bool := path.head? = some '/'
    let out :=
      if rooted then cleanLoop rooted path.length path.tail ['/'] 1
      else cleanLoop rooted path.length path [] 0
    if out = [] then ['.'] else out.reverse

/-- The buffer that Go `path.Join` fills before cleaning: the elements separated by
slashes, empty leading elements being skipped. -/
def joinBuf : List (List Char) → List Char → List Char
  | [], buf => buf
  | e :: es, buf =>
    if buf.length > 0 ∨ e ≠ [] then
      joinBuf es ((if buf.length > 0 then buf ++ ['/'] else buf) ++ e)
    else joinBuf es buf

/-- Go `path.Join` on characters. -/
def joinChars (elem : List (List Char)) : List Char :=
  if (elem.map List.length).sum = 0 then [] else cleanChars (joinBuf elem [])

/-- Go `path.Join(directory, name)`. -/
def pathJoin (directory name : String) : String :=
  String.mk (joinChars [directory.data, name.data])

/-- The digit loop of Go `fmt` for base 10: peel the last digit while the value
has more than one. -/
def fmtDigits : Nat → Nat → List Char → List Char
  | 0, _, acc => acc
  | fuel + 1, u, acc =>
    if u ≥ 10 then fmtDigits fuel (u / 10) (Char.ofNat (48 + u % 10) :: acc)
    else Char.ofNat (48 + u) :: acc

/-- Go `fmt.Sprintf("%v", port)` for an `int`. -/
def fmtSprintfV (port : Int) : String :=
  match port with
  | Int.ofNat u => String.mk (fmtDigits (u + 1) u [])
  | Int.negSucc u => String.mk ('-' :: fmtDigits (u + 2) (u + 1) [])

/-! ## plugin.go: the record -/

/-- The `Plugin` struct.  `Client` is `none` for a nil pointer; a nil `Meta` map reads as
the empty map. -/
structure Plugin where
  Client : Option RpcClient
  Host : String
  Name : String
  PluginFile : String
  Port : String
  Meta : List (String × String)
deriving DecidableEq, Repr

/-- The constructor `NewPlugin`. -/
def NewPlugin (host name pluginFile port : String) : Plugin :=
  { Client := none, Host := host, Name := name, PluginFile := pluginFile, Port := port, Meta := [] }

/-! ## loader.go -/

/-- The indexing `strings.Split(x, ".")[0]`; the split by a non-empty separator always has
a first piece. -/
def firstPiece (pieces : List String) : String := pieces.headD ""

/-- The function `Load`, given the outcome of `freeport.GetFreePort()`.  The first component is the
returned pointer (`none` for nil), the second the returned error. -/
def Load (pluginFile : String) (freePort : Except GoError Int) : Option Plugin × Option GoError :=
  let host := "localhost"
  let name := firstPiece (stringsSplitDot (filepathBase pluginFile))
  match freePort with
  | .error err => (none, some err)
  | .ok port => (some (NewPlugin host name pluginFile (fmtSprintfV port)), none)

/-- A Go `map[string]*Plugin`: an association list with one pair per key. -/
abbrev Registry := List (String × Plugin)

/-- Go `m[key] = value`: the pair of `key`, if any, is replaced. -/
def mapAssign (m : Registry) (key : String) (value : Plugin) : Registry :=
  (key, value) :: m.filter (fun e => e.1 ≠ key)

/-- Go `m[key]`, `none` when the key is absent. -/
def mapIndex (m : Registry) (key : String) : Option Plugin :=
  (m.find? (fun e => e.1 = key)).map Prod.snd

/-- Go `len(m)`. -/
def mapLen (m : Registry) : Nat := m.length

/-- What `LoadFromDirectory` returns, together with the number of calls it made to
`freeport.GetFreePort`. -/
structure DirLoad where
  plugins : Registry
  err : Option GoError
  allocs : Nat
deriving DecidableEq, Repr

/-- The `for _, fi := range fileInfo` loop of `LoadFromDirectory`.  `names` are the
`fi.Name()` still to visit, `freePort k` is the outcome of the call number `k` to
`freeport.GetFreePort`, and `k` counts the calls made so far. -/
def loadLoop (directory : String) (freePort : Nat → Except GoError Int) :
    List String → Registry → Nat → DirLoad
  | [], plugins, k => ⟨plugins, none, k⟩
  | fiName :: rest, plugins, k =>
    if goLen fiName > 0 then
      let host := "localhost"
      let name := firstPiece (stringsSplitDot fiName)
      match freePort k with
      | .error err => ⟨plugins, some err, k + 1⟩
      | .ok port =>
        let plugin := NewPlugin host name (pathJoin directory fiName) (fmtSprintfV port)
        loadLoop directory freePort rest (mapAssign plugins name plugin) (k + 1)
    else loadLoop directory freePort rest plugins k

/-- The function `LoadFromDirectory`, given the outcome of `ioutil.ReadDir(directory)` (the names of
the entries, in listing order) and the outcomes of the successive calls to
`freeport.GetFreePort`. -/
def LoadFromDirectory (directory : String) (readDir : Except GoError (List String))
    (freePort : Nat → Except GoError Int) : DirLoad :=
  let plugins : Registry := []
  match readDir with
  | .error err => ⟨plugins, some err, 0⟩
  | .ok fileInfo => loadLoop directory freePort fileInfo plugins 0

/-! ## plugin.go: the lifecycle -/

/-- What the child process did: the result of `cmd.Run()` and the text it wrote to its
standard error. -/
structure ChildRun where
  runErr : Option GoError
  stderr : String
deriving DecidableEq, Repr

/-- The moment at which `StartServer` reads `err`, relative to the stores made by the
goroutine it has just launched.  Nothing orders the two, so each moment is possible. -/
inductive ReadPoint where
  | beforeStores
  | afterRunStore
  | afterStderrStore
deriving DecidableEq, Repr

/-- The interactions of the lifecycle with the outside world. -/
inductive Event where
  | goSpawn (pluginFile port : String)
  | dial (network address : String)
  | call (client : RpcClient) (function payload : String)
deriving DecidableEq, Repr

/-- The outside world of one lifecycle operation: the run of `exec.Command(file, port)`,
the moment `StartServer` reads `err`, the outcome of `rpc.Dial(network, address)` and what
`client.Call(function, payload, &response)` stores in `response` and returns. -/
structure Env where
  child : String → String → ChildRun
  readPoint : ReadPoint
  rpcDial : String → String → Except GoError RpcClient
  rpcCall : RpcClient → String → String → String × Option GoError

/-- The goroutine of `StartServer`, first statement: `if e != nil { err = e }`. -/
def afterRunCheck (run : ChildRun) (err : Option GoError) : Option GoError :=
  if run.runErr ≠ none then run.runErr else err

/-- The goroutine of `StartServer`, second statement:
`if stderr.Len() > 0 { err = errors.New(stderr.String()) }`. -/
def afterStderrCheck (run : ChildRun) (err : Option GoError) : Option GoError :=
  if goLen run.stderr > 0 then some (errorsNew run.stderr) else err

/-- The value of `err` once the goroutine of `StartServer` has run to its end. -/
def spawnPath (run : ChildRun) : Option GoError :=
  afterStderrCheck run (afterRunCheck run none)

/-- The value of `err` that `StartServer` reads after the `go` statement. -/
def errRead (point : ReadPoint) (run : ChildRun) : Option GoError :=
  match point with
  | .beforeStores => none
  | .afterRunStore => afterRunCheck run none
  | .afterStderrStore => spawnPath run

/-- The result of `StartServer` or `Dial`: the returned error, the record afterwards and
the interactions made. -/
structure Step where
  err : Option GoError
  plugin : Plugin
  events : List Event
deriving DecidableEq, Repr

/-- The result of `Call` or `Invoke`: either the function returns a response and an
error, or it stops in a run-time panic (nil pointer dereference). -/
inductive Outcome where
  | returned (response : String) (err : Option GoError) (plugin : Plugin) (events : List Event)
  | panicked (plugin : Plugin) (events : List Event)
deriving DecidableEq, Repr

/-- The method `Plugin.StartServer`: it launches the goroutine and reads `err` at once. -/
def StartServer (plugin : Plugin) (env : Env) : Step :=
  let err := errRead env.readPoint (env.child plugin.PluginFile plugin.Port)
  if err ≠ none then ⟨err, plugin, [Event.goSpawn plugin.PluginFile plugin.Port]⟩
  else ⟨none, plugin, [Event.goSpawn plugin.PluginFile plugin.Port]⟩

/-- The method `Plugin.Dial`. -/
def Dial (plugin : Plugin) (env : Env) : Step :=
  let address := plugin.Host ++ ":" ++ plugin.Port
  match env.rpcDial "tcp" address with
  | .error err => ⟨some err, plugin, [Event.dial "tcp" address]⟩
  | .ok rpcClient => ⟨none, { plugin with Client := some rpcClient }, [Event.dial "tcp" address]⟩

/-- The method `Plugin.Call`.  `(*rpc.Client).Call` locks a mutex of its receiver before anything
else, so a nil `Client` is a nil pointer dereference. -/
def Call (plugin : Plugin) (function payload : String) (env : Env) : Outcome :=
  match plugin.Client with
  | none => .panicked plugin []
  | some client =>
    let r := env.rpcCall client function payload
    if r.2 ≠ none then .returned r.1 r.2 plugin [Event.call client function payload]
    else .returned r.1 none plugin [Event.call client function payload]

/-- The method `Plugin.Invoke`. -/
def Invoke (plugin : Plugin) (function payload : String) (env : Env) : Outcome :=
  let response := ""
  let started := StartServer plugin env
  if started.err ≠ none then .returned response started.err started.plugin started.events
  else
    let dialed := Dial started.plugin env
    if dialed.err ≠ none then
      .returned response dialed.err dialed.plugin (started.events ++ dialed.events)
    else
      match dialed.plugin.Client with
      | none => .panicked dialed.plugin (started.events ++ dialed.events)
      | some client =>
        let r := env.rpcCall client function payload
        if r.2 ≠ none then
          .returned r.1 r.2 dialed.plugin
            (started.events ++ dialed.events ++ [Event.call client function payload])
        else
          .returned r.1 none dialed.plugin
            (started.events ++ dialed.events ++ [Event.call client function payload])

/-- One lifecycle operation applied to a record, with the outside world it meets. -/
inductive Op where
  | startServer (env : Env)
  | dial (env : Env)
  | call (function payload : String) (env : Env)
  | invoke (function payload : String) (env : Env)

/-- The record after one operation; `none` when the operation panics. -/
def applyOp (plugin : Plugin) : Op → Option Plugin
  | .startServer env => some (StartServer plugin env).plugin
  | .dial env => some (Dial plugin env).plugin
  | .call function payload env =>
    match Call plugin function payload env with
    | .returned _ _ p _ => some p
    | .panicked _ _ => none
  | .invoke function payload env =>
    match Invoke plugin function payload env with
    | .returned _ _ p _ => some p
    | .panicked _ _ => none

/-- The record after a sequence of operations; `none` when one of them panics. -/
def runOps : Plugin → List Op → Option Plugin
  | plugin, [] => some plugin
  | plugin, op :: ops =>
    match applyOp plugin op with
    | none => none
    | some p => runOps p ops

/-! ## The specification's wording -/

/-- The text of `s` before its first `.` (all of `s` when it has none). -/
def textBeforeFirstDot (s : String) : String :=
  String.mk (s.data.takeWhile (fun c => c ≠ '.'))

/-- The reference for `Load`: the allocator's error and no record, or a record with the
derived name, host `localhost`, the path unchanged, the port in decimal and no
connection. -/
def loadReference (path : String) (allocated : Except GoError Int) :
    Option Plugin × Option GoError :=
  match allocated with
  | .error e => (none, some e)
  | .ok p =>
    (some { Client := none, Host := "localhost", Name := textBeforeFirstDot (filepathBase path),
            PluginFile := path, Port := toString p, Meta := [] }, none)

/-- Put the interactions `before` in front of those of an outcome. -/
def Outcome.after (before : List Event) : Outcome → Outcome
  | .returned response err plugin events => .returned response err plugin (before ++ events)
  | .panicked plugin events => .panicked plugin (before ++ events)

/-- The reference for `Invoke`: `StartServer`, then `Dial`, then `Call`, stopping at the
first one that fails. -/
def invokeSequence (plugin : Plugin) (function payload : String) (env : Env) : Outcome :=
  let started := StartServer plugin env
  match started.err with
  | some e => .returned "" (some e) started.plugin started.events
  | none =>
    let dialed := Dial started.plugin env
    match dialed.err with
    | some e => .returned "" (some e) dialed.plugin (started.events ++ dialed.events)
    | none => (Call dialed.plugin function payload env).after (started.events ++ dialed.events)

/-- The number of entries of a listing that `LoadFromDirectory` loads: those with a
name that is not empty. -/
def loadable (names : List String) : Nat :=
  (names.filter (fun n => n ≠ "")).length

/-- Whether a list of names can be what `ioutil.ReadDir` returns in this respect: the
directory read never lists the entries `.` and `..` of the directory. -/
def omitsDotEntries (names : List String) : Bool :=
  names.all (fun m => m ≠ "." ∧ m ≠ "..")

/-- Whether the dial phase of an operation on a record with the given address takes place
and succeeds. -/
def dialSucceeds (plugin : Plugin) : Op → Bool
  | .startServer _ => false
  | .dial env => (Dial plugin env).err = none
  | .call _ _ _ => false
  | .invoke _ _ env => (StartServer plugin env).err = none ∧ (Dial plugin env).err = none

/-! ## Auxiliary notions for the proofs -/

/-- The keys of a registry. -/
def keys (m : Registry) : List String := m.map Prod.fst

/-- The number a list of decimal digits stands for. -/
def digitsValue (l : List Char) : Nat :=
  l.foldl (fun a c => 10 * a + (c.toNat - 48)) 0

/-- The unread part of the path ends in the element `n`. -/
def EndsIn (n rest : List Char) : Prop := rest = n ∨ ∃ x, rest = x ++ '/' :: n

/-- The written buffer (reversed) has `n` as its last element. -/
def Cleaned (n res : List Char) : Prop := res = n.reverse ∨ ∃ pre, res = n.reverse ++ '/' :: pre

/-- Two records with the same address and executable. -/
def SameTarget (p q : Plugin) : Prop :=
  p.Host = q.Host ∧ p.Port = q.Port ∧ p.PluginFile = q.PluginFile

/-! ## Lemmas -/

theorem goLen_pos_iff (s : String) : goLen s > 0 ↔ s ≠ "" := by
  rcases s with ⟨l⟩
  cases l with
  | nil => simp [goLen, String.utf8ByteSize, String.utf8ByteSize.go]
  | cons c t =>
    have h : (⟨c :: t⟩ : String) ≠ "" := by
      intro h
      have := congrArg String.data h
      simp at this
    simp only [goLen, String.utf8ByteSize, String.utf8ByteSize.go, gt_iff_lt, ne_eq, h,
      not_false_eq_true, iff_true]
    have := Char.utf8Size_pos c
    omega

theorem splitDotChars_ne_nil (l : List Char) : splitDotChars l ≠ [] := by
  cases l with
  | nil => simp [splitDotChars]
  | cons c t =>
    simp only [splitDotChars]
    split
    · simp
    · split <;> simp

theorem splitDotChars_head (l : List Char) :
    (splitDotChars l).head? = some (l.takeWhile (fun c => c ≠ '.')) := by
  induction l with
  | nil => simp [splitDotChars]
  | cons c t ih =>
    simp only [splitDotChars]
    by_cases hc : c = '.'
    · simp [hc]
    · simp only [hc, if_false]
      cases hs : splitDotChars t with
      | nil => exact absurd hs (splitDotChars_ne_nil t)
      | cons piece pieces =>
        rw [hs] at ih
        simp at ih
        simp [List.takeWhile, hc, ih]

theorem firstPiece_split (s : String) :
    firstPiece (stringsSplitDot s) = textBeforeFirstDot s := by
  have h := splitDotChars_head s.data
  unfold firstPiece stringsSplitDot textBeforeFirstDot
  cases hs : splitDotChars s.data with
  | nil => exact absurd hs (splitDotChars_ne_nil _)
  | cons piece pieces =>
    rw [hs] at h
    simp at h
    simp [h]

theorem fmtDigit_eq : ∀ d, d < 10 → Char.ofNat (48 + d) = Nat.digitChar d := by decide

theorem fmtDigits_eq_toDigitsCore (fuel : Nat) : ∀ (u : Nat) (acc : List Char),
    fmtDigits fuel u acc = Nat.toDigitsCore 10 fuel u acc := by
  induction fuel with
  | zero => intro u acc; simp [fmtDigits, Nat.toDigitsCore]
  | succ f ih =>
    intro u acc
    simp only [fmtDigits, Nat.toDigitsCore]
    by_cases hu : u ≥ 10
    · have h1 : u / 10 ≠ 0 := by omega
      simp only [hu, if_true, h1, if_false]
      rw [ih, fmtDigit_eq _ (Nat.mod_lt _ (by decide))]
    · have h1 : u / 10 = 0 := by omega
      have h2 : u % 10 = u := by omega
      simp only [hu, if_false, h1, if_true, h2]
      rw [fmtDigit_eq _ (by omega)]

theorem fmtSprintfV_eq_toString (p : Int) : fmtSprintfV p = toString p := by
  cases p with
  | ofNat u =>
    show String.mk (fmtDigits (u + 1) u []) = Nat.repr u
    rw [fmtDigits_eq_toDigitsCore]; rfl
  | negSucc u =>
    show String.mk ('-' :: fmtDigits (u + 2) (u + 1) []) = "-" ++ Nat.repr (u + 1)
    rw [fmtDigits_eq_toDigitsCore]; rfl

/-! ## The registry -/

theorem mapAssign_fresh (m : Registry) (k : String) (v : Plugin) (h : k ∉ keys m) :
    mapAssign m k v = (k, v) :: m := by
  unfold mapAssign
  congr 1
  rw [List.filter_eq_self]
  intro e he
  have : e.1 ≠ k := by
    intro hk
    exact h (hk ▸ List.mem_map_of_mem Prod.fst he)
  simp [this]

theorem mapIndex_assign_same (m : Registry) (k : String) (v : Plugin) :
    mapIndex (mapAssign m k v) k = some v := by
  simp [mapIndex, mapAssign]

theorem find_filter_other (m : Registry) (k k' : String) (h : k' ≠ k) :
    (m.filter (fun e => e.1 ≠ k)).find? (fun e => e.1 = k') = m.find? (fun e => e.1 = k') := by
  induction m with
  | nil => rfl
  | cons a t ih =>
    rw [List.filter_cons, List.find?_cons]
    by_cases ha : a.1 = k
    · have hd : ¬ (decide (a.1 ≠ k) = true) := by simp [ha]
      have he : decide (a.1 = k') = false := by
        simpa using fun h' : a.1 = k' => h (h' ▸ ha)
      rw [if_neg hd, ih]
      simp only [he]
    · have hd : decide (a.1 ≠ k) = true := by simp [ha]
      rw [if_pos hd, List.find?_cons]
      cases he : decide (a.1 = k') with
      | true => rfl
      | false => exact ih

theorem mapIndex_assign_other (m : Registry) (k k' : String) (v : Plugin) (h : k' ≠ k) :
    mapIndex (mapAssign m k v) k' = mapIndex m k' := by
  have hk : decide (k = k') = false := by simpa using fun h' => h h'.symm
  unfold mapIndex mapAssign
  rw [List.find?_cons]
  simp only [hk]
  rw [find_filter_other m k k' h]

theorem keys_mapAssign (m : Registry) (k : String) (v : Plugin) :
    keys (mapAssign m k v) = k :: (keys m).filter (fun x => x ≠ k) := by
  simp [keys, mapAssign, List.filter_map, Function.comp_def]

theorem nodup_keys_mapAssign (m : Registry) (k : String) (v : Plugin) (h : (keys m).Nodup) :
    (keys (mapAssign m k v)).Nodup := by
  rw [keys_mapAssign]
  refine List.nodup_cons.2 ⟨?_, h.filter _⟩
  simp [List.mem_filter]

theorem mapIndex_some_mem (m : Registry) (k : String) (v : Plugin) (h : mapIndex m k = some v) :
    k ∈ keys m := by
  unfold mapIndex at h
  cases hf : m.find? (fun e => e.1 = k) with
  | none => simp [hf] at h
  | some e =>
    have h1 := List.find?_some hf
    have h2 := List.mem_of_find?_eq_some hf
    simp at h1
    exact h1 ▸ List.mem_map_of_mem Prod.fst h2

/-! ## The loop of `LoadFromDirectory` -/

theorem loadable_cons (n : String) (names : List String) :
    loadable (n :: names) = (if n ≠ "" then 1 else 0) + loadable names := by
  by_cases h : n = "" <;> simp [loadable, List.filter, h, Nat.add_comm]

theorem loadable_append (a b : List String) : loadable (a ++ b) = loadable a + loadable b := by
  simp [loadable]

theorem loadLoop_append (d : String) (fp : Nat → Except GoError Int) (pre post : List String) :
    ∀ (m : Registry) (k : Nat),
      loadLoop d fp (pre ++ post) m k =
        if (loadLoop d fp pre m k).err = none then
          loadLoop d fp post (loadLoop d fp pre m k).plugins (loadLoop d fp pre m k).allocs
        else loadLoop d fp pre m k := by
  induction pre with
  | nil => intro m k; simp [loadLoop]
  | cons f rest ih =>
    intro m k
    simp only [List.cons_append, loadLoop, List.append_eq]
    by_cases hf : goLen f > 0
    · simp only [hf, if_true]
      cases hfp : fp k with
      | error e => simp
      | ok p => simp only [ih]
    · simp only [hf, if_false, ih]

theorem loadLoop_ok (d : String) (fp : Nat → Except GoError Int) (names : List String) :
    ∀ (m : Registry) (k : Nat),
      (∀ i, k ≤ i → i < k + loadable names → ∃ p, fp i = .ok p) →
      (loadLoop d fp names m k).err = none ∧
        (loadLoop d fp names m k).allocs = k + loadable names := by
  induction names with
  | nil => intro m k _; simp [loadLoop, loadable]
  | cons f rest ih =>
    intro m k h
    rw [loadable_cons] at h ⊢
    simp only [loadLoop]
    by_cases hf : f = ""
    · have hl : ¬ goLen f > 0 := by rw [goLen_pos_iff]; simpa using hf
      simp only [hl, if_false, hf, ne_eq, not_true_eq_false, Nat.zero_add]
      exact ih m k (by simpa [hf] using h)
    · have hl : goLen f > 0 := (goLen_pos_iff f).2 hf
      simp only [hl, if_true, hf, ne_eq, not_false_eq_true]
      obtain ⟨p, hp⟩ := h k (Nat.le_refl k) (by simp [hf])
      simp only [hp]
      have := ih (mapAssign m (firstPiece (stringsSplitDot f))
        (NewPlugin "localhost" (firstPiece (stringsSplitDot f)) (pathJoin d f) (fmtSprintfV p)))
        (k + 1) (fun i h1 h2 => h i (by omega) (by simp [hf]; omega))
      refine ⟨this.1, ?_⟩
      rw [this.2]; omega

theorem loadLoop_err_none (d : String) (fp : Nat → Except GoError Int) (names : List String) :
    ∀ (m : Registry) (k : Nat), (loadLoop d fp names m k).err = none →
      ∀ i, k ≤ i → i < k + loadable names → ∃ p, fp i = .ok p := by
  induction names with
  | nil => intro m k _ i h1 h2; simp [loadable] at h2; omega
  | cons f rest ih =>
    intro m k h i h1 h2
    rw [loadable_cons] at h2
    simp only [loadLoop] at h
    by_cases hf : f = ""
    · have hl : ¬ goLen f > 0 := by rw [goLen_pos_iff]; simpa using hf
      simp only [hl, if_false] at h
      exact ih m k h i h1 (by simpa [hf] using h2)
    · have hl : goLen f > 0 := (goLen_pos_iff f).2 hf
      simp only [hl, if_true] at h
      cases hfp : fp k with
      | error e => simp [hfp] at h
      | ok p =>
        simp only [hfp] at h
        by_cases hik : i = k
        · exact ⟨p, hik ▸ hfp⟩
        · exact ih _ (k + 1) h i (by omega) (by simp [hf] at h2; omega)

theorem loadLoop_mapIndex (d : String) (fp : Nat → Except GoError Int) (key : String)
    (names : List String) :
    ∀ (m : Registry) (k : Nat),
      (∀ g ∈ names, g ≠ "" → textBeforeFirstDot g ≠ key) →
      mapIndex (loadLoop d fp names m k).plugins key = mapIndex m key := by
  induction names with
  | nil => intro m k _; simp [loadLoop]
  | cons f rest ih =>
    intro m k h
    simp only [loadLoop]
    by_cases hf : f = ""
    · have hl : ¬ goLen f > 0 := by rw [goLen_pos_iff]; simpa using hf
      simp only [hl, if_false]
      exact ih m k (fun g hg => h g (List.mem_cons_of_mem _ hg))
    · have hl : goLen f > 0 := (goLen_pos_iff f).2 hf
      simp only [hl, if_true]
      cases hfp : fp k with
      | error e => rfl
      | ok p =>
        simp only []
        rw [ih _ (k + 1) (fun g hg => h g (List.mem_cons_of_mem _ hg)), firstPiece_split]
        exact mapIndex_assign_other _ _ _ _ (fun hk => h f (List.mem_cons_self _ _) hf hk.symm)

theorem loadLoop_nodup (d : String) (fp : Nat → Except GoError Int) (names : List String) :
    ∀ (m : Registry) (k : Nat), (keys m).Nodup → (keys (loadLoop d fp names m k).plugins).Nodup := by
  induction names with
  | nil => intro m k h; simpa [loadLoop] using h
  | cons f rest ih =>
    intro m k h
    simp only [loadLoop]
    split
    · split
      · exact h
      · exact ih _ _ (nodup_keys_mapAssign _ _ _ h)
    · exact ih _ _ h

/-! ## Decimal rendering is injective -/

theorem fmtDigit_value : ∀ d, d < 10 → (Char.ofNat (48 + d)).toNat - 48 = d := by decide

theorem fmtDigit_ne_minus : ∀ d, d < 10 → Char.ofNat (48 + d) ≠ '-' := by decide

theorem fmtDigits_acc (fuel : Nat) : ∀ (u : Nat) (acc : List Char),
    fmtDigits fuel u acc = fmtDigits fuel u [] ++ acc := by
  induction fuel with
  | zero => intro u acc; simp [fmtDigits]
  | succ f ih =>
    intro u acc
    simp only [fmtDigits]
    by_cases hu : u ≥ 10
    · simp only [hu, if_true]
      rw [ih (u / 10) (_ :: acc), ih (u / 10) [_]]
      simp
    · simp [hu]

theorem fmtDigits_value (fuel : Nat) : ∀ u, u < fuel → digitsValue (fmtDigits fuel u []) = u := by
  induction fuel with
  | zero => intro u h; omega
  | succ f ih =>
    intro u h
    simp only [fmtDigits]
    by_cases hu : u ≥ 10
    · simp only [hu, if_true]
      rw [fmtDigits_acc]
      have h1 := ih (u / 10) (by omega)
      unfold digitsValue at h1 ⊢
      rw [List.foldl_append, h1]
      simp only [List.foldl_cons, List.foldl_nil]
      rw [fmtDigit_value _ (Nat.mod_lt _ (by decide))]
      omega
    · simp only [hu, if_false, digitsValue, List.foldl_cons, List.foldl_nil]
      rw [fmtDigit_value _ (by omega)]
      omega

theorem fmtDigits_head (fuel : Nat) : ∀ (u : Nat) (acc : List Char),
    ∃ dgt, dgt < 10 ∧ ∃ t, fmtDigits (fuel + 1) u acc = Char.ofNat (48 + dgt) :: t := by
  induction fuel with
  | zero =>
    intro u acc
    simp only [fmtDigits]
    by_cases hu : u ≥ 10
    · exact ⟨u % 10, Nat.mod_lt _ (by decide), acc, by simp [hu]⟩
    · exact ⟨u, by omega, acc, by simp [hu]⟩
  | succ f ih =>
    intro u acc
    rw [fmtDigits]
    by_cases hu : u ≥ 10
    · simp only [hu, if_true]
      exact ih _ _
    · exact ⟨u, by omega, acc, by simp [hu]⟩

theorem fmtSprintfV_injective (a b : Int) (h : fmtSprintfV a = fmtSprintfV b) : a = b := by
  cases a with
  | ofNat u =>
    cases b with
    | ofNat v =>
      have h1 : fmtDigits (u + 1) u [] = fmtDigits (v + 1) v [] := congrArg String.data h
      have h2 := congrArg digitsValue h1
      rw [fmtDigits_value _ _ (by omega), fmtDigits_value _ _ (by omega)] at h2
      rw [h2]
    | negSucc v =>
      exfalso
      obtain ⟨dgt, hd, t, ht⟩ := fmtDigits_head u u []
      have h1 : fmtDigits (u + 1) u [] = '-' :: fmtDigits (v + 2) (v + 1) [] :=
        congrArg String.data h
      rw [ht] at h1
      exact fmtDigit_ne_minus dgt hd (List.cons.inj h1).1
  | negSucc u =>
    cases b with
    | ofNat v =>
      exfalso
      obtain ⟨dgt, hd, t, ht⟩ := fmtDigits_head v v []
      have h1 : '-' :: fmtDigits (u + 2) (u + 1) [] = fmtDigits (v + 1) v [] :=
        congrArg String.data h
      rw [ht] at h1
      exact fmtDigit_ne_minus dgt hd (List.cons.inj h1).1.symm
    | negSucc v =>
      have h0 : '-' :: fmtDigits (u + 2) (u + 1) [] = '-' :: fmtDigits (v + 2) (v + 1) [] :=
        congrArg String.data h
      have h1 := (List.cons.inj h0).2
      have h2 := congrArg digitsValue h1
      rw [fmtDigits_value _ _ (by omega), fmtDigits_value _ _ (by omega)] at h2
      have : u = v := by omega
      rw [this]

/-! ## Loading entries with fresh names -/

theorem loadable_of_nonempty (names : List String) (h : ∀ n ∈ names, n ≠ "") :
    loadable names = names.length := by
  unfold loadable
  rw [List.filter_eq_self.2]
  intro n hn
  simpa using h n hn

theorem loadLoop_fresh (d : String) (fp : Nat → Except GoError Int) (ports : Nat → Int)
    (names : List String) :
    ∀ (m : Registry) (k : Nat),
      (∀ n ∈ names, n ≠ "") →
      (names.map textBeforeFirstDot).Nodup →
      (∀ n ∈ names, textBeforeFirstDot n ∉ keys m) →
      (∀ i, k ≤ i → i < k + names.length → fp i = .ok (ports i)) →
      (loadLoop d fp names m k).plugins.map (fun e => e.2.Port) =
        ((List.range' k names.length).map (fun i => fmtSprintfV (ports i))).reverse ++
          m.map (fun e => e.2.Port) := by
  induction names with
  | nil => intro m k _ _ _ _; simp [loadLoop]
  | cons f rest ih =>
    intro m k hne hnd hfresh hok
    have hf : f ≠ "" := hne f (List.mem_cons_self _ _)
    have hl : goLen f > 0 := (goLen_pos_iff f).2 hf
    have hp := hok k (Nat.le_refl k) (by simp)
    rw [List.map_cons, List.nodup_cons] at hnd
    simp only [loadLoop, hl, if_true, hp, firstPiece_split]
    rw [mapAssign_fresh _ _ _ (hfresh f (List.mem_cons_self _ _))]
    rw [ih _ (k + 1) (fun n hn => hne n (List.mem_cons_of_mem _ hn)) hnd.2 ?_
      (fun i h1 h2 => hok i (by omega) (by simp; omega))]
    · simp [List.range'_succ, NewPlugin]
    · intro n hn hmem
      simp only [keys, List.map_cons, List.mem_cons] at hmem
      rcases hmem with hmem | hmem
      · exact hnd.1 (hmem ▸ List.mem_map_of_mem _ hn)
      · exact hfresh n (List.mem_cons_of_mem _ hn) hmem

/-! ## `path.Join` keeps the file name as the last element -/

theorem cleanPop_suffix (dd : Nat) : ∀ out : List Char, out.length > dd →
    (∃ pre, out = pre ++ cleanPop dd out) ∧ (cleanPop dd out).length ≥ dd := by
  intro out
  induction out with
  | nil => intro h; simp at h
  | cons c t ih =>
    intro h
    simp only [cleanPop]
    by_cases hc : t.length > dd ∧ c ≠ '/'
    · rw [if_pos hc]
      obtain ⟨⟨pre, hpre⟩, hlen⟩ := ih hc.1
      exact ⟨⟨c :: pre, by rw [List.cons_append, ← hpre]⟩, hlen⟩
    · rw [if_neg hc]
      refine ⟨⟨[c], rfl⟩, ?_⟩
      simp only [List.length_cons] at h
      omega

theorem dropWhile_append_sep (n : List Char) : ∀ x : List Char,
    (x ++ '/' :: n).dropWhile (fun c => c ≠ '/') = x.dropWhile (fun c => c ≠ '/') ++ '/' :: n := by
  intro x
  induction x with
  | nil => simp [List.dropWhile]
  | cons a x ih =>
    simp only [List.cons_append, List.dropWhile_cons]
    by_cases ha : a = '/'
    · simp [ha]
    · have hd : decide (a ≠ '/') = true := by simpa using ha
      simp only [hd, if_true]
      exact ih

theorem takeWhile_no_sep (n : List Char) (h : '/' ∉ n) :
    n.takeWhile (fun c => c ≠ '/') = n := by
  rw [List.takeWhile_eq_self_iff]
  intro c hc
  have : c ≠ '/' := fun h' => h (h' ▸ hc)
  simpa using this

theorem dropWhile_no_sep (n : List Char) (h : '/' ∉ n) :
    n.dropWhile (fun c => c ≠ '/') = [] := by
  rw [List.dropWhile_eq_nil_iff]
  intro c hc
  have : c ≠ '/' := fun h' => h (h' ▸ hc)
  simpa using this

theorem cleanLoop_nil (rooted : Bool) (fuel : Nat) (out : List Char) (dd : Nat) :
    cleanLoop rooted fuel [] out dd = out := by
  cases fuel <;> rfl

theorem endsIn_tail (n : List Char) (c : Char) (t : List Char) (h : EndsIn n (c :: t))
    (hne : c :: t ≠ n) (hc : c ≠ '/') : ∃ x, t = x ++ '/' :: n := by
  rcases h with h | ⟨x, hx⟩
  · exact absurd h hne
  · cases x with
    | nil => exact absurd (List.cons.inj hx).1 hc
    | cons a x => exact ⟨x, (List.cons.inj hx).2⟩

theorem endsIn_after_sep (n t : List Char) (hsep : '/' ∉ n) (h : EndsIn n ('/' :: t)) :
    EndsIn n t := by
  rcases h with h | ⟨x, hx⟩
  · exact absurd (h ▸ List.mem_cons_self _ _) hsep
  · cases x with
    | nil => exact Or.inl (List.cons.inj hx).2
    | cons a x => exact Or.inr ⟨x, (List.cons.inj hx).2⟩

theorem getLast_suffix (out pre s : List Char) (h : out = pre ++ s) (hs : s ≠ [])
    (hl : out.getLast? = some '/') : s.getLast? = some '/' := by
  rw [h, List.getLast?_append_of_ne_nil _ hs] at hl
  exact hl

theorem cleanLoop_keeps_last (rooted : Bool) (n : List Char) (hn : n ≠ []) (hsep : '/' ∉ n)
    (hdot : n ≠ ['.']) (hdotdot : n ≠ ['.', '.']) :
    ∀ (fuel : Nat) (rest out : List Char) (dd : Nat), rest.length ≤ fuel → EndsIn n rest →
      (rooted = true → dd = 1 ∧ out.getLast? = some '/') →
      Cleaned n (cleanLoop rooted fuel rest out dd) := by
  have hnil : ¬ EndsIn n [] := by
    rintro (h | ⟨x, hx⟩)
    · exact hn h.symm
    · simp at hx
  intro fuel
  induction fuel with
  | zero =>
    intro rest out dd hlen hends
    have : rest = [] := List.length_eq_zero.1 (by omega)
    exact absurd (this ▸ hends) hnil
  | succ fuel ih =>
    intro rest out dd hlen hends hinv
    cases rest with
    | nil => exact absurd hends hnil
    | cons c t =>
      have hlt : t.length ≤ fuel := by simp only [List.length_cons] at hlen; omega
      rw [cleanLoop]
      by_cases h1 : c = '/'
      · rw [if_pos h1]
        exact ih t out dd hlt (endsIn_after_sep n t hsep (h1 ▸ hends)) hinv
      · rw [if_neg h1]
        by_cases h2 : c = '.' ∧ (t = [] ∨ t.head? = some '/')
        · rw [if_pos h2]
          have hne : c :: t ≠ n := by
            intro h
            rcases h2.2 with ht | ht
            · exact hdot (by rw [← h, h2.1, ht])
            · cases t with
              | nil => simp at ht
              | cons b t' =>
                simp only [List.head?_cons, Option.some.injEq] at ht
                exact hsep (by rw [← h, ht]; simp)
          obtain ⟨x, hx⟩ := endsIn_tail n c t hends hne h1
          exact ih t out dd hlt (Or.inr ⟨x, hx⟩) hinv
        · rw [if_neg h2]
          by_cases h3 : c = '.' ∧ t.head? = some '.' ∧ (t.tail = [] ∨ t.tail.head? = some '/')
          · rw [if_pos h3]
            cases t with
            | nil => simp at h3
            | cons b t' =>
              simp only [List.head?_cons, Option.some.injEq, List.tail_cons] at h3
              have hne : c :: b :: t' ≠ n := by
                intro h
                rcases h3.2.2 with ht | ht
                · exact hdotdot (by rw [← h, h3.1, h3.2.1, ht])
                · cases t' with
                  | nil => simp at ht
                  | cons a t2 =>
                    simp only [List.head?_cons, Option.some.injEq] at ht
                    exact hsep (by rw [← h, ht]; simp)
              obtain ⟨x, hx⟩ := endsIn_tail n c (b :: t') hends hne h1
              have hends' : EndsIn n t' := by
                cases x with
                | nil =>
                  have := (List.cons.inj hx).1
                  rw [h3.2.1] at this
                  exact absurd this (by decide)
                | cons a x => exact Or.inr ⟨x, (List.cons.inj hx).2⟩
              have hlt' : t'.length ≤ fuel := by simp only [List.length_cons] at hlt; omega
              simp only [List.tail_cons]
              by_cases h4 : out.length > dd
              · rw [if_pos h4]
                refine ih t' _ dd hlt' hends' (fun hr => ?_)
                obtain ⟨hdd, hlast⟩ := hinv hr
                obtain ⟨⟨pre, hpre⟩, hge⟩ := cleanPop_suffix dd out h4
                refine ⟨hdd, getLast_suffix out pre _ hpre ?_ hlast⟩
                intro hempty
                rw [hempty, hdd] at hge
                simp at hge
              · rw [if_neg h4]
                by_cases h5 : rooted = false
                · rw [if_pos h5]
                  exact ih t' _ _ hlt' hends' (fun hr => by rw [h5] at hr; cases hr)
                · rw [if_neg h5]
                  exact ih t' out dd hlt' hends' hinv
          · rw [if_neg h3]
            simp only []
            by_cases hfin : c :: t = n
            · have hsep' : '/' ∉ c :: t := hfin ▸ hsep
              rw [dropWhile_no_sep _ hsep', takeWhile_no_sep _ hsep', cleanLoop_nil, hfin]
              by_cases h6 : (rooted = true ∧ out.length ≠ 1) ∨ (rooted = false ∧ out.length ≠ 0)
              · rw [if_pos h6]
                exact Or.inr ⟨out, rfl⟩
              · rw [if_neg h6]
                cases hr : rooted with
                | true =>
                  obtain ⟨_, hlast⟩ := hinv hr
                  have hlen1 : out.length = 1 := by
                    by_contra hcon
                    exact h6 (Or.inl ⟨hr, hcon⟩)
                  obtain ⟨a, ha⟩ := List.length_eq_one.1 hlen1
                  rw [ha] at hlast
                  simp only [List.getLast?_singleton, Option.some.injEq] at hlast
                  exact Or.inr ⟨[], by rw [ha, hlast]⟩
                | false =>
                  have hlen0 : out.length = 0 := by
                    by_contra hcon
                    exact h6 (Or.inr ⟨hr, hcon⟩)
                  rw [List.length_eq_zero.1 hlen0]
                  exact Or.inl (by simp)
            · obtain ⟨x, hx⟩ := endsIn_tail n c t hends hfin h1
              have hdrop : (c :: t).dropWhile (fun y => y ≠ '/') =
                  (c :: x).dropWhile (fun y => y ≠ '/') ++ '/' :: n := by
                rw [hx, ← List.cons_append, dropWhile_append_sep]
              have hdl : ((c :: t).dropWhile (fun y => y ≠ '/')).length ≤ fuel := by
                have hc : (c :: t).dropWhile (fun y => y ≠ '/') =
                    t.dropWhile (fun y => y ≠ '/') := by
                  simp [List.dropWhile, h1]
                rw [hc]
                exact Nat.le_trans (List.dropWhile_sublist _).length_le hlt
              refine ih _ _ dd hdl (Or.inr ⟨_, hdrop⟩) (fun hr => ?_)
              obtain ⟨hdd, hlast⟩ := hinv hr
              refine ⟨hdd, ?_⟩
              have hout : out ≠ [] := by
                intro he
                rw [he] at hlast
                simp at hlast
              by_cases h6 : (rooted = true ∧ out.length ≠ 1) ∨ (rooted = false ∧ out.length ≠ 0)
              · rw [if_pos h6, List.getLast?_append_of_ne_nil _ (by simp)]
                show (['/'] ++ out).getLast? = some '/'
                rw [List.getLast?_append_of_ne_nil _ hout]
                exact hlast
              · rw [if_neg h6, List.getLast?_append_of_ne_nil _ hout]
                exact hlast

theorem cleanLoop_fuel (rooted : Bool) : ∀ (f1 f2 : Nat) (rest out : List Char) (dd : Nat),
    rest.length ≤ f1 → rest.length ≤ f2 →
    cleanLoop rooted f1 rest out dd = cleanLoop rooted f2 rest out dd := by
  intro f1
  induction f1 with
  | zero =>
    intro f2 rest out dd h1 _
    have : rest = [] := List.length_eq_zero.1 (by omega)
    rw [this, cleanLoop_nil, cleanLoop_nil]
  | succ f1 ih =>
    intro f2 rest out dd h1 h2
    cases f2 with
    | zero =>
      have : rest = [] := List.length_eq_zero.1 (by omega)
      rw [this, cleanLoop_nil, cleanLoop_nil]
    | succ f2 =>
      cases rest with
      | nil => rfl
      | cons c t =>
        simp only [List.length_cons] at h1 h2
        have ht1 : t.tail.length ≤ f1 := by rw [List.length_tail]; omega
        have ht2 : t.tail.length ≤ f2 := by rw [List.length_tail]; omega
        rw [cleanLoop, cleanLoop]
        by_cases c1 : c = '/'
        · rw [if_pos c1, if_pos c1]
          exact ih f2 t out dd (by omega) (by omega)
        · rw [if_neg c1, if_neg c1]
          by_cases c2 : c = '.' ∧ (t = [] ∨ t.head? = some '/')
          · rw [if_pos c2, if_pos c2]
            exact ih f2 t out dd (by omega) (by omega)
          · rw [if_neg c2, if_neg c2]
            by_cases c3 : c = '.' ∧ t.head? = some '.' ∧ (t.tail = [] ∨ t.tail.head? = some '/')
            · rw [if_pos c3, if_pos c3]
              by_cases c4 : out.length > dd
              · rw [if_pos c4, if_pos c4]
                exact ih f2 _ _ dd ht1 ht2
              · rw [if_neg c4, if_neg c4]
                by_cases c5 : rooted = false
                · rw [if_pos c5, if_pos c5]
                  exact ih f2 _ _ _ ht1 ht2
                · rw [if_neg c5, if_neg c5]
                  exact ih f2 _ _ dd ht1 ht2
            · rw [if_neg c3, if_neg c3]
              have hc : (c :: t).dropWhile (fun y => y ≠ '/') =
                  t.dropWhile (fun y => y ≠ '/') := by
                simp [List.dropWhile, c1]
              have hl := (List.dropWhile_sublist (fun y : Char => decide (y ≠ '/')) (l := t)).length_le
              simp only []
              rw [hc]
              exact ih f2 _ _ dd (by omega) (by omega)

theorem takeWhile_append_sep (pre : List Char) : ∀ m : List Char, '/' ∉ m →
    (m ++ '/' :: pre).takeWhile (fun c => c ≠ '/') = m := by
  intro m
  induction m with
  | nil => intro _; simp [List.takeWhile]
  | cons a m ih =>
    intro h
    have ha : a ≠ '/' := fun h' => h (h' ▸ List.mem_cons_self _ _)
    have hd : decide (a ≠ '/') = true := by simpa using ha
    simp only [List.cons_append, List.takeWhile_cons, hd, if_true]
    rw [ih (fun h' => h (List.mem_cons_of_mem _ h'))]

theorem dropWhile_sep_head (m rest : List Char) (hm : m ≠ []) (h : '/' ∉ m) :
    (m ++ rest).dropWhile (fun c => c = '/') = m ++ rest := by
  cases m with
  | nil => exact absurd rfl hm
  | cons a m =>
    have ha : a ≠ '/' := fun h' => h (h' ▸ List.mem_cons_self _ _)
    have hd : decide (a = '/') = false := by simpa using ha
    simp only [List.cons_append, List.dropWhile_cons, hd]
    rfl

theorem baseChars_cleaned (n out : List Char) (hn : n ≠ []) (hsep : '/' ∉ n)
    (h : Cleaned n out) : out ≠ [] ∧ baseChars out.reverse = n := by
  have hrn : n.reverse ≠ [] := by simpa using hn
  have hrsep : '/' ∉ n.reverse := by simpa using hsep
  have hout : out ≠ [] := by
    rcases h with h | ⟨pre, h⟩ <;> rw [h] <;> simp [hn]
  refine ⟨hout, ?_⟩
  have hrev : out.reverse ≠ [] := by simpa using hout
  unfold baseChars
  rw [if_neg hrev, List.reverse_reverse]
  have htake : (out.dropWhile (fun c => c = '/')).takeWhile (fun c => c ≠ '/') = n.reverse := by
    rcases h with h | ⟨pre, h⟩
    · rw [h]
      have := dropWhile_sep_head n.reverse [] hrn hrsep
      rw [List.append_nil] at this
      rw [this, takeWhile_no_sep _ hrsep]
    · rw [h, dropWhile_sep_head n.reverse _ hrn hrsep, takeWhile_append_sep _ _ hrsep]
  simp only [htake, List.reverse_reverse]
  rw [if_neg hn]

theorem cleanChars_keeps_last (n path : List Char) (hn : n ≠ []) (hsep : '/' ∉ n)
    (hdot : n ≠ ['.']) (hdotdot : n ≠ ['.', '.']) (h : EndsIn n path) :
    baseChars (cleanChars path) = n := by
  have hpath : path ≠ [] := by
    rcases h with h | ⟨x, hx⟩
    · rw [h]; exact hn
    · rw [hx]; simp
  unfold cleanChars
  rw [if_neg hpath]
  simp only []
  by_cases hr : path.head? = some '/'
  · have hdec : decide (path.head? = some '/') = true := by simpa using hr
    simp only [hdec, if_true]
    cases path with
    | nil => exact absurd rfl hpath
    | cons c t =>
      simp only [List.head?_cons, Option.some.injEq] at hr
      have hends : EndsIn n t := endsIn_after_sep n t hsep (hr ▸ h)
      have hc := cleanLoop_keeps_last true n hn hsep hdot hdotdot (c :: t).length t ['/'] 1
        (by simp) hends (fun _ => ⟨rfl, rfl⟩)
      obtain ⟨hne, hbase⟩ := baseChars_cleaned n _ hn hsep hc
      simp only [List.tail_cons]
      rw [if_neg hne]
      exact hbase
  · have hdec : decide (path.head? = some '/') = false := by simpa using hr
    simp only [hdec]
    have hc := cleanLoop_keeps_last false n hn hsep hdot hdotdot path.length path [] 0
      (Nat.le_refl _) h (fun hf => by cases hf)
    obtain ⟨hne, hbase⟩ := baseChars_cleaned n _ hn hsep hc
    simp only [Bool.false_eq_true, if_false]
    rw [if_neg hne]
    exact hbase

theorem baseChars_joinChars (d n : List Char) (hn : n ≠ []) (hsep : '/' ∉ n)
    (hdot : n ≠ ['.']) (hdotdot : n ≠ ['.', '.']) :
    baseChars (joinChars [d, n]) = n := by
  have hsum : ¬ ((([d, n] : List (List Char)).map List.length).sum = 0) := by
    have : n.length ≠ 0 := fun h => hn (List.length_eq_zero.1 h)
    simp only [List.map_cons, List.map_nil, List.sum_cons, List.sum_nil]
    omega
  unfold joinChars
  rw [if_neg hsum]
  apply cleanChars_keeps_last n _ hn hsep hdot hdotdot
  cases d with
  | nil =>
    left
    simp [joinBuf, hn]
  | cons a d =>
    right
    exact ⟨a :: d, by simp [joinBuf]⟩

theorem filepathBase_pathJoin (d n : String) (hn : n ≠ "") (hsep : '/' ∉ n.data)
    (hdot : n ≠ ".") (hdotdot : n ≠ "..") : filepathBase (pathJoin d n) = n := by
  have h1 : n.data ≠ [] := fun h => hn (String.ext h)
  have h2 : n.data ≠ ['.'] := fun h => hdot (String.ext h)
  have h3 : n.data ≠ ['.', '.'] := fun h => hdotdot (String.ext h)
  unfold filepathBase pathJoin
  simp only []
  rw [baseChars_joinChars d.data n.data h1 hsep h2 h3]

theorem loadLoop_reaches (d : String) (fp : Nat → Except GoError Int) (pre post : List String)
    (f : String) (m : Registry) (k : Nat) (hf : f ≠ "")
    (hpre : ∀ i, k ≤ i → i < k + loadable pre → ∃ p, fp i = .ok p) :
    loadLoop d fp (pre ++ f :: post) m k =
      match fp (k + loadable pre) with
      | .error err => ⟨(loadLoop d fp pre m k).plugins, some err, k + loadable pre + 1⟩
      | .ok port =>
        loadLoop d fp post
          (mapAssign (loadLoop d fp pre m k).plugins (textBeforeFirstDot f)
            (NewPlugin "localhost" (textBeforeFirstDot f) (pathJoin d f) (fmtSprintfV port)))
          (k + loadable pre + 1) := by
  have h := loadLoop_ok d fp pre m k hpre
  have hl : goLen f > 0 := (goLen_pos_iff f).2 hf
  rw [loadLoop_append, if_pos h.1, h.2]
  simp only [loadLoop, hl, if_true, firstPiece_split]

/-! ## One lifecycle operation -/

theorem startServer_plugin (p : Plugin) (env : Env) : (StartServer p env).plugin = p := by
  unfold StartServer
  simp only []
  split <;> rfl

theorem startServer_err (p : Plugin) (env : Env) :
    (StartServer p env).err = errRead env.readPoint (env.child p.PluginFile p.Port) := by
  unfold StartServer
  simp only []
  split
  · rfl
  · rename_i h
    simp only [ne_eq, not_not] at h
    rw [h]

theorem dial_err_none (p : Plugin) (env : Env) :
    (Dial p env).err = none ↔ ∃ c, env.rpcDial "tcp" (p.Host ++ ":" ++ p.Port) = .ok c := by
  unfold Dial
  simp only []
  cases env.rpcDial "tcp" (p.Host ++ ":" ++ p.Port) <;> simp

theorem dial_fail_plugin (p : Plugin) (env : Env) (h : (Dial p env).err ≠ none) :
    (Dial p env).plugin = p := by
  unfold Dial at h ⊢
  simp only [] at h ⊢
  cases hd : env.rpcDial "tcp" (p.Host ++ ":" ++ p.Port) with
  | error e => rfl
  | ok c => rw [hd] at h; exact absurd rfl h

theorem dial_ok_plugin (p : Plugin) (env : Env) (h : (Dial p env).err = none) :
    ∃ c, (Dial p env).plugin = { p with Client := some c } := by
  unfold Dial at h ⊢
  simp only [] at h ⊢
  cases hd : env.rpcDial "tcp" (p.Host ++ ":" ++ p.Port) with
  | error e => rw [hd] at h; cases h
  | ok c => exact ⟨c, rfl⟩

theorem dial_err_congr (p q : Plugin) (env : Env) (h : SameTarget p q) :
    (Dial p env).err = (Dial q env).err := by
  unfold Dial
  simp only [h.1, h.2.1]
  cases env.rpcDial "tcp" (q.Host ++ ":" ++ q.Port) <;> rfl

theorem dialSucceeds_congr (p q : Plugin) (h : SameTarget p q) (op : Op) :
    dialSucceeds p op = dialSucceeds q op := by
  cases op with
  | startServer env => rfl
  | dial env => simp only [dialSucceeds, dial_err_congr p q env h]
  | call fn payload env => rfl
  | invoke fn payload env =>
    simp only [dialSucceeds, dial_err_congr p q env h, startServer_err, h.2.1, h.2.2]

theorem applyOp_call (p : Plugin) (fn payload : String) (env : Env) :
    applyOp p (.call fn payload env) = if p.Client = none then none else some p := by
  unfold applyOp Call
  cases p.Client with
  | none => rfl
  | some c =>
    by_cases hr : (env.rpcCall c fn payload).2 = none
    · simp [hr]
    · simp [hr]

theorem applyOp_invoke (p : Plugin) (fn payload : String) (env : Env) :
    applyOp p (.invoke fn payload env) =
      some (if (StartServer p env).err = none then (Dial p env).plugin else p) := by
  unfold applyOp Invoke
  simp only [startServer_plugin]
  by_cases hs : (StartServer p env).err = none
  · simp only [hs, ne_eq, not_true_eq_false, if_false, if_true]
    by_cases hd : (Dial p env).err = none
    · obtain ⟨c, hc⟩ := dial_ok_plugin p env hd
      simp only [hd, ne_eq, not_true_eq_false, if_false, hc]
      by_cases hr : (env.rpcCall c fn payload).2 = none
      · simp [hr]
      · simp [hr]
    · simp only [ne_eq, hd, not_false_eq_true, if_true]
  · simp only [ne_eq, hs, not_false_eq_true, if_true, if_false]

theorem applyOp_client (p q : Plugin) (op : Op) (h : applyOp p op = some q) :
    SameTarget p q ∧
      (q.Client.isSome = true ↔ p.Client.isSome = true ∨ dialSucceeds p op = true) := by
  have hdial : ∀ env, SameTarget p (Dial p env).plugin ∧
      ((Dial p env).plugin.Client.isSome = true ↔
        p.Client.isSome = true ∨ (Dial p env).err = none) := by
    intro env
    by_cases hd : (Dial p env).err = none
    · obtain ⟨c, hc⟩ := dial_ok_plugin p env hd
      rw [hc]
      simp [SameTarget, hd]
    · rw [dial_fail_plugin p env hd]
      simp [SameTarget, hd]
  cases op with
  | startServer env =>
    simp only [applyOp, startServer_plugin, Option.some.injEq] at h
    subst h
    simp [SameTarget, dialSucceeds]
  | dial env =>
    simp only [applyOp, Option.some.injEq] at h
    subst h
    simpa [dialSucceeds] using hdial env
  | call fn payload env =>
    rw [applyOp_call] at h
    by_cases hc : p.Client = none
    · rw [if_pos hc] at h; cases h
    · rw [if_neg hc] at h
      cases h
      simp [SameTarget, dialSucceeds]
  | invoke fn payload env =>
    rw [applyOp_invoke] at h
    by_cases hs : (StartServer p env).err = none
    · rw [if_pos hs] at h
      cases h
      simpa [dialSucceeds, hs] using hdial env
    · rw [if_neg hs] at h
      cases h
      simp [SameTarget, dialSucceeds, hs]

theorem runOps_client (ops : List Op) : ∀ (p q : Plugin), runOps p ops = some q →
    SameTarget p q ∧
      (q.Client.isSome = true ↔
        p.Client.isSome = true ∨ ∃ op ∈ ops, dialSucceeds p op = true) := by
  induction ops with
  | nil =>
    intro p q h
    simp only [runOps, Option.some.injEq] at h
    subst h
    simp [SameTarget]
  | cons op ops ih =>
    intro p q h
    simp only [runOps] at h
    cases ha : applyOp p op with
    | none => simp [ha] at h
    | some p1 =>
      simp only [ha] at h
      obtain ⟨ht1, hc1⟩ := applyOp_client p p1 op ha
      obtain ⟨ht2, hc2⟩ := ih p1 q h
      refine ⟨⟨ht1.1.trans ht2.1, ht1.2.1.trans ht2.2.1, ht1.2.2.trans ht2.2.2⟩, ?_⟩
      rw [hc2, hc1]
      constructor
      · rintro ((h' | h') | ⟨o, ho, h'⟩)
        · exact Or.inl h'
        · exact Or.inr ⟨op, List.mem_cons_self _ _, h'⟩
        · exact Or.inr ⟨o, List.mem_cons_of_mem _ ho, by rw [dialSucceeds_congr p p1 ht1]; exact h'⟩
      · rintro (h' | ⟨o, ho, h'⟩)
        · exact Or.inl (Or.inl h')
        · rcases List.mem_cons.1 ho with ho | ho
          · exact Or.inl (Or.inr (ho ▸ h'))
          · exact Or.inr ⟨o, ho, by rw [← dialSucceeds_congr p p1 ht1]; exact h'⟩

/-! ## The claims -/

/-- C1: for every path and every allocator outcome, `Load` agrees with the reference:
the allocator's error and no record, or no error and a record with the text of the base
file name before its first dot as name, host `localhost`, the path unchanged, the port in
decimal and no connection. -/
theorem load_eq_reference (path : String) (allocated : Except GoError Int) :
    Load path allocated = loadReference path allocated := by
  cases allocated with
  | error e => rfl
  | ok p =>
    simp only [Load, loadReference, NewPlugin, firstPiece_split, fmtSprintfV_eq_toString]

/-- C2: `Invoke` returns the same response and error, leaves the same record and makes the
same interactions as `StartServer`, then `Dial`, then `Call` run in sequence and stopped
at the first failure. -/
theorem invoke_eq_sequence (plugin : Plugin) (function payload : String) (env : Env) :
    Invoke plugin function payload env = invokeSequence plugin function payload env := by
  unfold Invoke invokeSequence
  simp only [startServer_plugin]
  cases hs : (StartServer plugin env).err with
  | some e => simp
  | none =>
    simp only [ne_eq, not_true_eq_false, if_false]
    cases hd : (Dial plugin env).err with
    | some e => simp
    | none =>
      simp only [ne_eq, not_true_eq_false, if_false]
      obtain ⟨c, hc⟩ := dial_ok_plugin plugin env hd
      rw [hc]
      simp only [Call]
      by_cases hr : (env.rpcCall c function payload).2 = none
      · simp [hr, Outcome.after]
      · simp [hr, Outcome.after]

/-- C3 on the code: `Call` on a freshly created record (no `Dial` yet, so a nil `Client`)
does not return an error: it panics on the nil pointer. -/
theorem call_before_dial_panics (host name pluginFile port function payload : String)
    (env : Env) :
    Call (NewPlugin host name pluginFile port) function payload env =
      .panicked (NewPlugin host name pluginFile port) [] := rfl

/-- C4 on the code: when `StartServer` reads `err` before the goroutine has stored
anything, it returns nil whatever happens to the child (a missing executable included),
and `Invoke` goes on to the dial phase and returns the dial error. -/
theorem startServer_misses_spawn_error (plugin : Plugin) (function payload : String)
    (child : String → String → ChildRun) (rpcDial : String → String → Except GoError RpcClient)
    (rpcCall : RpcClient → String → String → String × Option GoError) (dialErr : GoError) :
    (StartServer plugin ⟨child, .beforeStores, rpcDial, rpcCall⟩).err = none ∧
    Invoke plugin function payload ⟨child, .beforeStores, fun _ _ => .error dialErr, rpcCall⟩ =
      .returned "" (some dialErr) plugin
        [Event.goSpawn plugin.PluginFile plugin.Port,
         Event.dial "tcp" (plugin.Host ++ ":" ++ plugin.Port)] := by
  constructor
  · rfl
  · rfl

/-- C5, as stated, fails: two entries with distinct names, every allocation succeeding,
and the allocator handing out the same free port twice give two records with the same
port. -/
theorem loadFromDirectory_ports_may_collide :
    (["a", "b"].map textBeforeFirstDot).Nodup ∧ (∀ n ∈ ["a", "b"], n ≠ "") ∧
    (LoadFromDirectory "plugins" (.ok ["a", "b"]) (fun _ => .ok 5000)).err = none ∧
    mapLen (LoadFromDirectory "plugins" (.ok ["a", "b"]) (fun _ => .ok 5000)).plugins = 2 ∧
    ¬ ((LoadFromDirectory "plugins" (.ok ["a", "b"]) (fun _ => .ok 5000)).plugins.map
        (fun e => e.2.Port)).Nodup := by
  decide

/-- C5, amended: for a listing of N entries with non-empty file names whose derived names
are pairwise distinct, when the directory read and every allocation succeed,
`LoadFromDirectory` returns no error and a registry of exactly N entries; the ports of
those N records are pairwise distinct when the ports the allocator returned are. -/
theorem loadFromDirectory_distinct_entries (d : String) (names : List String)
    (fp : Nat → Except GoError Int) (ports : Nat → Int)
    (hne : ∀ n ∈ names, n ≠ "")
    (hnames : (names.map textBeforeFirstDot).Nodup)
    (hok : ∀ i, i < names.length → fp i = .ok (ports i)) :
    (LoadFromDirectory d (.ok names) fp).err = none ∧
    mapLen (LoadFromDirectory d (.ok names) fp).plugins = names.length ∧
    ((∀ i j, i < names.length → j < names.length → ports i = ports j → i = j) →
      ((LoadFromDirectory d (.ok names) fp).plugins.map (fun e => e.2.Port)).Nodup) := by
  have hfresh := loadLoop_fresh d fp ports names [] 0 hne hnames (by simp [keys])
    (fun i _ h2 => hok i (by omega))
  have herr := loadLoop_ok d fp names [] 0
    (fun i _ h2 => ⟨ports i, hok i (by rw [loadable_of_nonempty names hne] at h2; omega)⟩)
  simp only [LoadFromDirectory]
  refine ⟨herr.1, ?_, ?_⟩
  · have := congrArg List.length hfresh
    simpa [mapLen] using this
  · intro hports
    rw [hfresh]
    simp only [List.map_nil, List.append_nil, List.nodup_reverse]
    refine List.Nodup.map_on ?_ (List.nodup_range' _ _)
    intro i hi j hj hij
    simp only [List.mem_range'_1] at hi hj
    exact hports i j (by omega) (by omega) (fmtSprintfV_injective _ _ hij)

theorem loadFromDirectory_distinct_entries_witness :
    (LoadFromDirectory "plugins" (.ok ["foo.sh", "bar.bin"]) (fun i => .ok (5000 + i))).err = none ∧
    mapLen (LoadFromDirectory "plugins" (.ok ["foo.sh", "bar.bin"])
      (fun i => .ok (5000 + i))).plugins = ["foo.sh", "bar.bin"].length ∧
    ((LoadFromDirectory "plugins" (.ok ["foo.sh", "bar.bin"])
      (fun i => .ok (5000 + i))).plugins.map (fun e => e.2.Port)).Nodup :=
  have h := loadFromDirectory_distinct_entries "plugins" ["foo.sh", "bar.bin"]
    (fun i => .ok (5000 + i)) (fun i => 5000 + i) (by decide) (by decide) (fun _ _ => rfl)
  ⟨h.1, h.2.1, h.2.2 (fun i j _ _ hij => by simpa using hij)⟩

/-- C6: when several loaded entries (entries with a non-empty file name) derive the same
name and every allocation succeeds, the registry holds exactly one record under that
name: the one built from the last of them, with the directory joined with that entry's
file name as executable path and the port allocated for that entry. -/
theorem loadFromDirectory_last_wins (d : String) (pre post : List String) (f : String)
    (fp : Nat → Except GoError Int) (port : Int)
    (hf : f ≠ "")
    (hlast : ∀ g ∈ post, g ≠ "" → textBeforeFirstDot g ≠ textBeforeFirstDot f)
    (hok : ∀ i, i < loadable (pre ++ f :: post) → ∃ p, fp i = .ok p)
    (hport : fp (loadable pre) = .ok port) :
    (LoadFromDirectory d (.ok (pre ++ f :: post)) fp).err = none ∧
    mapIndex (LoadFromDirectory d (.ok (pre ++ f :: post)) fp).plugins (textBeforeFirstDot f) =
      some (NewPlugin "localhost" (textBeforeFirstDot f) (pathJoin d f) (fmtSprintfV port)) ∧
    ((LoadFromDirectory d (.ok (pre ++ f :: post)) fp).plugins.map Prod.fst).count
      (textBeforeFirstDot f) = 1 := by
  have herr := (loadLoop_ok d fp (pre ++ f :: post) [] 0
    (fun i _ h => hok i (by omega))).1
  have hidx : mapIndex (loadLoop d fp (pre ++ f :: post) [] 0).plugins (textBeforeFirstDot f) =
      some (NewPlugin "localhost" (textBeforeFirstDot f) (pathJoin d f) (fmtSprintfV port)) := by
    rw [loadLoop_reaches d fp pre post f [] 0 hf
      (fun i _ h => hok i (by rw [loadable_append]; omega))]
    simp only [Nat.zero_add, hport]
    rw [loadLoop_mapIndex d fp _ post _ _ hlast, mapIndex_assign_same]
  have hnd := loadLoop_nodup d fp (pre ++ f :: post) [] 0 (by simp [keys])
  refine ⟨herr, hidx, ?_⟩
  exact List.count_eq_one_of_mem hnd (mapIndex_some_mem _ _ _ hidx)

theorem loadFromDirectory_last_wins_witness :
    (LoadFromDirectory "plugins" (.ok (["foo.sh", "bar"] ++ "foo.bin" :: ["baz.py"]))
      (fun i => .ok (5000 + i))).err = none ∧
    mapIndex (LoadFromDirectory "plugins" (.ok (["foo.sh", "bar"] ++ "foo.bin" :: ["baz.py"]))
      (fun i => .ok (5000 + i))).plugins (textBeforeFirstDot "foo.bin") =
      some (NewPlugin "localhost" (textBeforeFirstDot "foo.bin") (pathJoin "plugins" "foo.bin")
        (fmtSprintfV 5002)) ∧
    ((LoadFromDirectory "plugins" (.ok (["foo.sh", "bar"] ++ "foo.bin" :: ["baz.py"]))
      (fun i => .ok (5000 + i))).plugins.map Prod.fst).count (textBeforeFirstDot "foo.bin") = 1 :=
  loadFromDirectory_last_wins "plugins" ["foo.sh", "bar"] ["baz.py"] "foo.bin"
    (fun i => .ok (5000 + i)) 5002 (by decide) (by decide) (fun i _ => ⟨5000 + i, rfl⟩) rfl

/-- C7: `LoadFromDirectory` stops on the first failure and reports it.  A failed directory
read gives that error, an empty registry and no allocation.  When the allocation for an
entry is the first to fail, the result is that allocator error, no allocation after it,
and the registry as it was before that entry.  The error is nil exactly when the read and
every allocation succeeded. -/
theorem loadFromDirectory_stops_on_first_failure (d : String)
    (fp : Nat → Except GoError Int) :
    (∀ e, LoadFromDirectory d (.error e) fp = ⟨[], some e, 0⟩) ∧
    (∀ (pre post : List String) (f : String) (e : GoError), f ≠ "" →
      (∀ i, i < loadable pre → ∃ p, fp i = .ok p) → fp (loadable pre) = .error e →
      LoadFromDirectory d (.ok (pre ++ f :: post)) fp =
        ⟨(LoadFromDirectory d (.ok pre) fp).plugins, some e, loadable pre + 1⟩) ∧
    (∀ readDir, (LoadFromDirectory d readDir fp).err = none ↔
      ∃ names, readDir = .ok names ∧ ∀ i, i < loadable names → ∃ p, fp i = .ok p) := by
  refine ⟨fun e => rfl, ?_, ?_⟩
  · intro pre post f e hf hpre hfail
    simp only [LoadFromDirectory]
    rw [loadLoop_reaches d fp pre post f [] 0 hf (fun i _ h => hpre i (by omega))]
    simp only [Nat.zero_add, hfail]
  · intro readDir
    cases readDir with
    | error e => simp [LoadFromDirectory]
    | ok names =>
      simp only [LoadFromDirectory, Except.ok.injEq, exists_eq_left']
      constructor
      · intro h i hi
        exact loadLoop_err_none d fp names [] 0 h i (Nat.zero_le _) (by omega)
      · intro h
        exact (loadLoop_ok d fp names [] 0 (fun i _ hi => h i (by omega))).1

theorem loadFromDirectory_stops_on_first_failure_witness :
    LoadFromDirectory "plugins" (.ok (["a.sh"] ++ "b.sh" :: ["c.sh"]))
        (fun i => if i = 0 then .ok 5000 else .error ⟨"no free port"⟩) =
      ⟨(LoadFromDirectory "plugins" (.ok ["a.sh"])
          (fun i => if i = 0 then .ok 5000 else .error ⟨"no free port"⟩)).plugins,
        some ⟨"no free port"⟩, loadable ["a.sh"] + 1⟩ :=
  (loadFromDirectory_stops_on_first_failure "plugins"
    (fun i => if i = 0 then .ok 5000 else .error ⟨"no free port"⟩)).2.1
    ["a.sh"] ["c.sh"] "b.sh" ⟨"no free port"⟩ (by decide)
    (fun i hi => ⟨5000, by
      have h1 : loadable ["a.sh"] = 1 := by decide
      have h0 : i = 0 := by omega
      simp [h0]⟩) rfl

/-- C8, as stated, fails: after a `Dial` that succeeds, a `Call` that fails returns its
error and leaves the connection in place. -/
theorem failed_call_keeps_connection :
    runOps (NewPlugin "localhost" "echo" "plugins/echo" "5000")
      [Op.dial ⟨fun _ _ => ⟨none, ""⟩, .beforeStores, fun _ _ => .ok ⟨7⟩,
          fun _ _ _ => ("", some ⟨"connection is shut down"⟩)⟩,
       Op.call "Execute" "hello" ⟨fun _ _ => ⟨none, ""⟩, .beforeStores, fun _ _ => .ok ⟨7⟩,
          fun _ _ _ => ("", some ⟨"connection is shut down"⟩)⟩] =
      some { NewPlugin "localhost" "echo" "plugins/echo" "5000" with Client := some ⟨7⟩ } ∧
    Call { NewPlugin "localhost" "echo" "plugins/echo" "5000" with Client := some ⟨7⟩ }
        "Execute" "hello"
        ⟨fun _ _ => ⟨none, ""⟩, .beforeStores, fun _ _ => .ok ⟨7⟩,
          fun _ _ _ => ("", some ⟨"connection is shut down"⟩)⟩ =
      .returned "" (some ⟨"connection is shut down"⟩)
        { NewPlugin "localhost" "echo" "plugins/echo" "5000" with Client := some ⟨7⟩ }
        [Event.call ⟨7⟩ "Execute" "hello"] ∧
    ({ NewPlugin "localhost" "echo" "plugins/echo" "5000" with Client := some ⟨7⟩ } :
      Plugin).Client = some ⟨7⟩ :=
  ⟨rfl, rfl, rfl⟩

/-- C8, amended: the connection of a record is absent at creation, and after any sequence
of `StartServer`, `Dial`, `Call` and `Invoke` operations that runs to its end it is
present exactly when it was present before or a `Dial` (alone or as the dial phase of
an `Invoke`) of the sequence succeeded.  So it stays absent after a failed `Dial`, and
once set no operation, a failing `Call` included, sets it back to absent. -/
theorem connection_present_iff_dialed (plugin after : Plugin) (ops : List Op)
    (h : runOps plugin ops = some after) :
    (∀ host name pluginFile port, (NewPlugin host name pluginFile port).Client = none) ∧
    (after.Client.isSome = true ↔
      plugin.Client.isSome = true ∨ ∃ op ∈ ops, dialSucceeds plugin op = true) :=
  ⟨fun _ _ _ _ => rfl, (runOps_client ops plugin after h).2⟩

theorem connection_present_iff_dialed_witness :
    (∀ host name pluginFile port, (NewPlugin host name pluginFile port).Client = none) ∧
    (({ NewPlugin "localhost" "echo" "plugins/echo" "5000" with Client := some ⟨7⟩ } :
        Plugin).Client.isSome = true ↔
      (NewPlugin "localhost" "echo" "plugins/echo" "5000").Client.isSome = true ∨
      ∃ op ∈ [Op.startServer ⟨fun _ _ => ⟨none, ""⟩, .beforeStores, fun _ _ => .ok ⟨7⟩,
                fun _ _ _ => ("", some ⟨"connection is shut down"⟩)⟩,
              Op.dial ⟨fun _ _ => ⟨none, ""⟩, .beforeStores, fun _ _ => .ok ⟨7⟩,
                fun _ _ _ => ("", some ⟨"connection is shut down"⟩)⟩,
              Op.call "Execute" "hello" ⟨fun _ _ => ⟨none, ""⟩, .beforeStores,
                fun _ _ => .ok ⟨7⟩, fun _ _ _ => ("", some ⟨"connection is shut down"⟩)⟩],
        dialSucceeds (NewPlugin "localhost" "echo" "plugins/echo" "5000") op = true) :=
  connection_present_iff_dialed (NewPlugin "localhost" "echo" "plugins/echo" "5000")
    { NewPlugin "localhost" "echo" "plugins/echo" "5000" with Client := some ⟨7⟩ } _ rfl

/-- C9: once the goroutine of `StartServer` has run, the recorded error is an error whose
message is the captured standard-error text when that text is non-empty, whatever
`cmd.Run()` returned; otherwise it is the error of `cmd.Run()`, nil included. -/
theorem spawnPath_stderr_supersedes (e : Option GoError) (s : String) :
    spawnPath ⟨e, s⟩ = if s ≠ "" then some (errorsNew s) else e := by
  unfold spawnPath afterStderrCheck afterRunCheck
  by_cases hs : s = ""
  · subst hs
    cases e <;> simp [goLen_pos_iff]
  · have := (goLen_pos_iff s).2 hs
    simp [hs, this]

/-- C10: `LoadFromDirectory` performs the same derivation as `Load`.  For every directory,
every listing of it (a directory read never lists `.` or `..`) and every entry of the
listing whose file name is non-empty and has no path separator, overwritten later or
not: once the loop reaches the entry and the allocator yields a port, the record the loop
builds is the record `Load` returns for the joined path with the same port, and the loop
assigns it in the registry under the record's own name field; the record has the name
derived from the file name, host `localhost` and the joined path as executable path. -/
theorem loadFromDirectory_same_as_load (d : String) (pre post : List String) (n : String)
    (fp : Nat → Except GoError Int) (port : Int)
    (hlisting : omitsDotEntries (pre ++ n :: post) = true)
    (hn : n ≠ "") (hsep : '/' ∉ n.data)
    (hpre : ∀ i, i < loadable pre → ∃ p, fp i = .ok p)
    (hport : fp (loadable pre) = .ok port) :
    ∃ r, Load (pathJoin d n) (.ok port) = (some r, none) ∧
      LoadFromDirectory d (.ok (pre ++ n :: post)) fp =
        loadLoop d fp post
          (mapAssign (LoadFromDirectory d (.ok pre) fp).plugins r.Name r) (loadable pre + 1) ∧
      mapIndex (mapAssign (LoadFromDirectory d (.ok pre) fp).plugins r.Name r) r.Name = some r ∧
      r.Name = textBeforeFirstDot n ∧ r.Host = "localhost" ∧ r.PluginFile = pathJoin d n := by
  have hdots : n ≠ "." ∧ n ≠ ".." := by
    have h := List.all_eq_true.1 hlisting n (by simp)
    simpa using h
  refine ⟨NewPlugin "localhost" (textBeforeFirstDot n) (pathJoin d n) (fmtSprintfV port),
    ?_, ?_, mapIndex_assign_same _ _ _, rfl, rfl, rfl⟩
  · simp only [Load, firstPiece_split, filepathBase_pathJoin d n hn hsep hdots.1 hdots.2]
  · simp only [LoadFromDirectory]
    rw [loadLoop_reaches d fp pre post n [] 0 hn (fun i _ h => hpre i (by omega))]
    simp only [Nat.zero_add, hport]
    rfl

theorem loadFromDirectory_same_as_load_witness :
    ∃ r, Load (pathJoin "plugins/" "foo.sh") (.ok 5001) = (some r, none) ∧
      LoadFromDirectory "plugins/" (.ok (["bar"] ++ "foo.sh" :: ["foo.bin"]))
          (fun i => .ok (5000 + i)) =
        loadLoop "plugins/" (fun i => .ok (5000 + i)) ["foo.bin"]
          (mapAssign (LoadFromDirectory "plugins/" (.ok ["bar"])
            (fun i => .ok (5000 + i))).plugins r.Name r) (loadable ["bar"] + 1) ∧
      mapIndex (mapAssign (LoadFromDirectory "plugins/" (.ok ["bar"])
        (fun i => .ok (5000 + i))).plugins r.Name r) r.Name = some r ∧
      r.Name = textBeforeFirstDot "foo.sh" ∧ r.Host = "localhost" ∧
      r.PluginFile = pathJoin "plugins/" "foo.sh" :=
  loadFromDirectory_same_as_load "plugins/" ["bar"] ["foo.bin"] "foo.sh"
    (fun i => .ok (5000 + i)) 5001 (by decide) (by decide) (by decide)
    (fun i _ => ⟨5000 + i, rfl⟩) rfl

end GoPlugin
